import Mathlib

/-! VARINPUT (`src/client.js`): variable store, placeholder substitution, input simulation.

A shallow embedding of the browser module `client.js`.

* JavaScript strings are modelled as `List Char` (`JSString`).  Only equality, concatenation,
  searching and emptiness of strings are used by the program, so nothing depends on the
  difference between UTF-16 code units and Unicode scalar values.
* Variable names and values are strings, which is what the two dialogs of the module produce.
* The host context (`context.setStorage`, `context.getStorage`) and the dialog library are
  external: `setStorage` is modelled by the log of the payloads handed to it, a dialog by the
  form values it resolves to.
* `async` functions are modelled by their sequential execution, one operation at a time.
* The page is modelled around one element below `document.body`, with the body listener of
  `observeDOMChanges` as the only listener: `dispatchEvent` runs it synchronously.  The call
  stack is unbounded; a natural number of fuel bounds the nesting of listener runs, and a run
  that no fuel lets return is one that does not terminate.
-/

namespace VARINPUT

/-- A JavaScript string. -/
abbrev JSString := List Char

/-- JavaScript truthiness of a string: a string is falsy exactly when it is empty. -/
def truthy (s : JSString) : Bool := !s.isEmpty

/-- An entry `{ name, value }` of the `VARIABLES` array. -/
structure Variable where
  name : JSString
  value : JSString
  deriving DecidableEq, Repr

/-- A JavaScript value as far as `getVariableFromList` needs one: a string or `undefined`
(the value of a parameter the caller omitted). -/
inductive JSValue where
  | undefined
  | str (s : JSString)
  deriving DecidableEq, Repr

/-- The module state of the variable store: the in-memory array `VARIABLES` (line 29) and the
payloads of all `context.setStorage('VARIABLES', ...)` calls made so far, oldest first. -/
structure Store where
  VARIABLES : List Variable
  setStorageCalls : List (List Variable)
  deriving DecidableEq, Repr

/-- The assignment `existingVariable.value = variableValue` (line 46) on the entry that
`VARIABLES.find(v => v.name === variableName)` returns: the first entry with that name. -/
def updateFirst (variableName variableValue : JSString) : List Variable → List Variable
  | [] => []
  | v :: vs =>
    if v.name = variableName then { v with value := variableValue } :: vs
    else v :: updateFirst variableName variableValue vs

/-- Lines 36-54, `addOrUpdateVariable`. -/
def addOrUpdateVariable (st : Store) (variableName variableValue : JSString) : Store :=
  if !truthy variableName || !truthy variableValue then
    st
  else
    let vars :=
      match st.VARIABLES.find? (fun v => decide (v.name = variableName)) with
      | some _ => updateFirst variableName variableValue st.VARIABLES
      | none => st.VARIABLES ++ [{ name := variableName, value := variableValue }]
    { VARIABLES := vars, setStorageCalls := st.setStorageCalls ++ [vars] }

/-- Lines 60-63, `removeVariable`. -/
def removeVariable (st : Store) (variableName : JSString) : Store :=
  let vars := st.VARIABLES.filter (fun v => decide (v.name ≠ variableName))
  { VARIABLES := vars, setStorageCalls := st.setStorageCalls ++ [vars] }

/-- The object `{ success, value }` that `context.getStorage('VARIABLES')` resolves to. -/
structure StorageResult where
  success : Bool
  value : List Variable
  deriving DecidableEq, Repr

/-- Lines 69-72, `getVariableList`. -/
def getVariableList (storedVariables : StorageResult) : List Variable :=
  if storedVariables.success then
    storedVariables.value.filter (fun v => truthy v.name && truthy v.value)
  else []

/-- Lines 207-210, `getVariableFromList`. -/
def getVariableFromList (VARIABLES : List Variable) (variableName : JSString)
    (defaultValue : JSValue) : JSValue :=
  match VARIABLES.find? (fun v => decide (v.name = variableName)) with
  | some found => JSValue.str found.value
  | none => defaultValue

/-- Lines 108-136, `window.editVariable`.  `formValues` is what the dialog resolves to:
`none` when it is dismissed, the pair of the two input fields when it is confirmed.
Reading `variable.name` of `VARIABLES[index]` throws when `index` is out of range, before
anything is changed. -/
def editVariable (st : Store) (index : Nat) (formValues : Option (JSString × JSString)) :
    Store :=
  if index < st.VARIABLES.length then
    match formValues with
    | none => st
    | some (varName, varValue) =>
      if truthy varName && truthy varValue then
        let st1 := addOrUpdateVariable st varName varValue
        { st1 with VARIABLES := st1.VARIABLES.set index { name := varName, value := varValue } }
      else st
  else st

/-- Lines 141-146, `window.removeVariable`. -/
def windowRemoveVariable (st : Store) (index : Nat) : Store :=
  match st.VARIABLES.get? index with
  | some found => removeVariable st found.name
  | none => st

/-- The names held by a variable list, in order. -/
def names (vars : List Variable) : List JSString := vars.map (fun v => v.name)

/-- The data-model condition on a variable list that the filter of `getVariableList` and the
guards of `addOrUpdateVariable` and `editVariable` maintain: every entry has a non-empty
name and a non-empty value. -/
def WellFormed (vars : List Variable) : Prop :=
  ∀ v ∈ vars, v.name ≠ [] ∧ v.value ≠ []

/-! ## The placeholder pattern and `String.prototype.replace` -/

/-- The code points that `.` does not match in a regular expression without the `s` flag:
the line terminators LF, CR, LS and PS. -/
def isLineTerminator (c : Char) : Bool :=
  c.toNat = 10 || c.toNat = 13 || c.toNat = 8232 || c.toNat = 8233

/-- The tail `(.*?)}}` of the pattern matched at the head of a string: the lazy quantifier
takes the shortest run of non-line-terminators that is followed by two closing braces.
Returns the capture and the text after the match. -/
def matchBody : JSString → Option (JSString × JSString)
  | [] => none
  | c :: rest =>
    if c = '}' ∧ rest.head? = some '}' then some ([], rest.tail)
    else if isLineTerminator c then none
    else
      match matchBody rest with
      | some (name, after) => some (c :: name, after)
      | none => none

/-- The result of one successful `variablePattern.exec(value)`: the text skipped between the
previous `lastIndex` and the match, the capture `match[1]`, and the text from the new
`lastIndex` on. -/
structure RegExpMatch where
  before : JSString
  name : JSString
  after : JSString
  deriving DecidableEq, Repr

/-- The whole pattern of line 218 matched at the head of a string: two opening braces, then
`matchBody`. -/
def matchHere : JSString → Option (JSString × JSString)
  | c :: d :: rest => if c = '{' ∧ d = '{' then matchBody rest else none
  | _ => none

/-- One call `variablePattern.exec(value)` of the global pattern of line 218, on the part of
`value` that starts at `lastIndex`: the leftmost position where the pattern matches. -/
def exec : JSString → Option RegExpMatch
  | [] => none
  | c :: rest =>
    match matchHere (c :: rest) with
    | some (name, after) => some { before := [], name := name, after := after }
    | none =>
      match exec rest with
      | some m => some { m with before := c :: m.before }
      | none => none

/-- Whether `pat` is an initial segment of `s`. -/
def startsWith : JSString → JSString → Bool
  | _, [] => true
  | [], _ :: _ => false
  | c :: s, p :: pat => decide (c = p) && startsWith s pat

/-- The first occurrence of `pat` in a string, as the pair of the text before it and the text
after it (`String.prototype.indexOf`). -/
def splitAtFirst (pat : JSString) : JSString → Option (JSString × JSString)
  | [] => if pat = [] then some ([], []) else none
  | c :: s =>
    if startsWith (c :: s) pat then some ([], (c :: s).drop pat.length)
    else
      match splitAtFirst pat s with
      | some (preceding, following) => some (c :: preceding, following)
      | none => none

/-- `String.prototype.includes`. -/
def includes (s pat : JSString) : Bool := (splitAtFirst pat s).isSome

/-- ECMAScript `GetSubstitution` for a string pattern (no capture groups): in the replacement
text `$$` stands for `$`, `$&` for the matched text, `$` followed by a grave accent for the
text before the match and `$` followed by an apostrophe for the text after it.  Without
capture groups `$` followed by digits or by `<` is literal, as is `$` before any other
character, so in the last case both characters are copied. -/
def getSubstitution (matched preceding following : JSString) : JSString → JSString
  | [] => []
  | c :: rest =>
    if c = '$' then
      match rest with
      | [] => ['$']
      | d :: rest2 =>
        if d = '$' then '$' :: getSubstitution matched preceding following rest2
        else if d = '&' then matched ++ getSubstitution matched preceding following rest2
        else if d.toNat = 96 then preceding ++ getSubstitution matched preceding following rest2
        else if d.toNat = 39 then following ++ getSubstitution matched preceding following rest2
        else '$' :: d :: getSubstitution matched preceding following rest2
    else c :: getSubstitution matched preceding following rest

/-- `str.replace(searchString, replaceValue)` with a string pattern: only the first
occurrence is replaced, by the expansion of the replacement text. -/
def replace (str searchString replaceValue : JSString) : JSString :=
  match splitAtFirst searchString str with
  | none => str
  | some (preceding, following) =>
    preceding ++ getSubstitution searchString preceding following replaceValue ++ following

/-- The template literal of lines 226-227: the name between two pairs of braces. -/
def placeholder (variableName : JSString) : JSString :=
  '{' :: '{' :: variableName ++ ['}', '}']

/-- The expression `getVariableFromList(variableName) || placeholder` of line 226: the
default is `undefined`, and `||` falls back on a falsy left operand. -/
def lookupOrPlaceholder (VARIABLES : List Variable) (variableName : JSString) : JSString :=
  match getVariableFromList VARIABLES variableName JSValue.undefined with
  | JSValue.str s => if truthy s then s else placeholder variableName
  | JSValue.undefined => placeholder variableName

/-- The `while` loop of lines 222-228.  `rest` is `value` from `lastIndex` on; the result is
the pair of `newValue` and `hasMatch` when the loop ends, `none` when the fuel runs out. -/
def substituteLoop (VARIABLES : List Variable) :
    Nat → JSString → JSString → Bool → Option (JSString × Bool)
  | 0, _, _, _ => none
  | fuel + 1, rest, newValue, hasMatch =>
    match exec rest with
    | none => some (newValue, hasMatch)
    | some m =>
      substituteLoop VARIABLES fuel m.after
        (replace newValue (placeholder m.name) (lookupOrPlaceholder VARIABLES m.name)) true

/-- Lines 217-228: `newValue` and `hasMatch` computed from the element's value.  Every
iteration consumes at least four characters, so `value.length + 1` iterations are enough
(`substitute_isSome`). -/
def substitute (VARIABLES : List Variable) (value : JSString) : Option (JSString × Bool) :=
  substituteLoop VARIABLES (value.length + 1) value value false

/-! ## Framework detection, the input simulator and the body listener -/

/-- What `detectFramework` reads of the page: whether each of the four globals is defined,
and the markup of `document.head`. -/
structure Window where
  hasNextData : Bool
  hasGatsby : Bool
  hasNuxt : Bool
  hasReact : Bool
  headContent : JSString
  deriving DecidableEq, Repr

/-- The labels `detectFramework` returns: `'Next.js'`, `'Gatsby'`, `'Nuxt.js'`, `'React'`
and the empty string. -/
inductive Framework where
  | nextJs
  | gatsby
  | nuxtJs
  | react
  | noFramework
  deriving DecidableEq, Repr

/-- Lines 151-166, `detectFramework`. -/
def detectFramework (w : Window) : Framework :=
  if w.hasNextData then Framework.nextJs
  else if w.hasGatsby then Framework.gatsby
  else if w.hasNuxt then Framework.nuxtJs
  else if w.hasReact then Framework.react
  else if includes w.headContent "/_next/".toList then Framework.nextJs
  else if includes w.headContent "gatsby".toList || includes w.headContent "/static/".toList
    then Framework.gatsby
  else if includes w.headContent "/_nuxt/".toList then Framework.nuxtJs
  else if includes w.headContent "React".toList then Framework.react
  else Framework.noFramework

/-- The element an input event targets.  `isHTMLInputElement` tells whether the native
`value` setter of `HTMLInputElement.prototype` accepts the element (it throws a `TypeError`
on any other receiver, a textarea included); `programmaticallyChanged` is the attribute
`data-programmatically-changed`, `none` when absent. -/
structure Element where
  tagName : JSString
  isHTMLInputElement : Bool
  value : JSString
  programmaticallyChanged : Option JSString
  deriving DecidableEq, Repr

/-- The two events `simulateInput` dispatches, both of type `'input'` and bubbling:
`new Event('input', ...)` (line 184) and `new CustomEvent('input', ...)` with
`detail: { ignore: true }` (line 189). -/
inductive SyntheticEvent where
  | vueInputEvent
  | customInputEvent
  deriving DecidableEq, Repr

/-- The page state around one element attached below `document.body`: what the code reads,
and a record of every effect it has (calls of `simulateInput` with their `value` argument,
`focus()` calls, assignments to the element's value, dispatched events, timers started with
`setTimeout`, rejected promises of the `async` listener). -/
structure Page where
  window : Window
  VARIABLES : List Variable
  input : Element
  simulateInputCalls : List JSString
  focusCalls : Nat
  writes : List JSString
  dispatched : List SyntheticEvent
  timers : Nat
  rejections : Nat
  deriving DecidableEq, Repr

/-- How a run ends: it returns, it throws, or the fuel that bounds the nesting of
synchronous event dispatch runs out. -/
inductive Outcome where
  | returned (p : Page)
  | threw (p : Page)
  | exhausted (p : Page)
  deriving DecidableEq, Repr

/-- The page state a run ends in, however it ends. -/
def Outcome.page : Outcome → Page
  | Outcome.returned p => p
  | Outcome.threw p => p
  | Outcome.exhausted p => p

/-- The string `'true'`. -/
def strTrue : JSString := "true".toList

/-- An assignment of the element's value, recorded in `writes`. -/
def writeValue (p : Page) (value : JSString) : Page :=
  { p with input := { p.input with value := value }, writes := p.writes ++ [value] }

/-- Lines 196-197: set the marker attribute and start the timer that removes it. -/
def setMarker (p : Page) : Page :=
  { p with input := { p.input with programmaticallyChanged := some strTrue },
           timers := p.timers + 1 }

/-- The callback of the timer of line 197, run three seconds later. -/
def timerFires (p : Page) : Page :=
  { p with input := { p.input with programmaticallyChanged := none }, timers := p.timers - 1 }

/-- `input.dispatchEvent(e)` followed by lines 196-197.  `listeners` runs, synchronously,
the listeners the bubbling event reaches; an exception inside a listener does not reach the
dispatcher. -/
def dispatchThenMark (listeners : Page → Outcome) (p : Page) (e : SyntheticEvent) : Outcome :=
  match listeners { p with dispatched := p.dispatched ++ [e] } with
  | Outcome.returned p1 => Outcome.returned (setMarker p1)
  | Outcome.threw p1 => Outcome.returned (setMarker p1)
  | Outcome.exhausted p1 => Outcome.exhausted p1

/-- Lines 171-198, `simulateInput(input, value)`. -/
def simulateInput (listeners : Page → Outcome) (p0 : Page) (value : JSString) : Outcome :=
  let p := { p0 with simulateInputCalls := p0.simulateInputCalls ++ [value] }
  if p.input.programmaticallyChanged = some strTrue then Outcome.returned p
  else
    let p1 := { p with focusCalls := p.focusCalls + 1 }
    match detectFramework p1.window with
    | Framework.nuxtJs =>
      dispatchThenMark listeners (writeValue p1 value) SyntheticEvent.vueInputEvent
    | Framework.noFramework =>
      dispatchThenMark listeners (writeValue p1 value) SyntheticEvent.customInputEvent
    | _ =>
      if p1.input.isHTMLInputElement then Outcome.returned (setMarker (writeValue p1 value))
      else Outcome.threw p1

/-- The completion of the `async` listener as its caller sees it: an exception thrown in the
body is turned into a rejection of the promise the listener returns. -/
def asyncResult : Outcome → Outcome
  | Outcome.threw p => Outcome.returned { p with rejections := p.rejections + 1 }
  | o => o

/-- `input.tagName.toLowerCase()`.  Only the comparison with `'input'` and `'textarea'` is
made of it, and no character outside ASCII lowercases to a letter of these two words, so
lowercasing the ASCII letters is enough. -/
def toLowerCase (s : JSString) : JSString := s.map Char.toLower

/-- Lines 214-232: the `async` listener that `observeDOMChanges` attaches to `document.body`
for `'input'` events, run on an event whose target is the page's element.  The body has no
`await`, so it runs synchronously inside `dispatchEvent`; an exception makes the promise it
returns reject.  The fuel bounds the nesting depth of listener runs. -/
def inputListener : Nat → Page → Outcome
  | 0, p => Outcome.exhausted p
  | fuel + 1, p =>
    if toLowerCase p.input.tagName = "input".toList ∨
        toLowerCase p.input.tagName = "textarea".toList then
      match substitute p.VARIABLES p.input.value with
      | none => Outcome.exhausted p
      | some (newValue, hasMatch) =>
        if hasMatch then asyncResult (simulateInput (inputListener fuel) p newValue)
        else Outcome.returned p
    else Outcome.returned p

/-- The captures `match[1]` of the successive `exec` calls of the loop of lines 222-228, with
the fuel of `substituteLoop`. -/
def tokenNames : Nat → JSString → List JSString
  | 0, _ => []
  | fuel + 1, rest =>
    match exec rest with
    | none => []
    | some m => m.name :: tokenNames fuel m.after

/-- The names of the placeholder tokens the loop finds in a value. -/
def tokens (value : JSString) : List JSString := tokenNames (value.length + 1) value

/-- The string handed to `simulateInput` by one run of the listener body (lines 217-230) on
an input or textarea with the given value: `none` when `simulateInput` is not called. -/
def simulatorArgument (VARIABLES : List Variable) (value : JSString) : Option JSString :=
  match substitute VARIABLES value with
  | some (newValue, true) => some newValue
  | _ => none

/-- The substitution the specification describes, for comparison with `substitute`: the
value with each token whose name resolves in the variable list replaced by that variable's
value, every unresolved token left verbatim, and all text outside the tokens kept in place.
The tokens are those the pattern finds from left to right. -/
def expectedLoop (VARIABLES : List Variable) : Nat → JSString → JSString
  | 0, rest => rest
  | fuel + 1, rest =>
    match exec rest with
    | none => rest
    | some m =>
      m.before ++
        (match getVariableFromList VARIABLES m.name JSValue.undefined with
          | JSValue.str s => s
          | JSValue.undefined => placeholder m.name) ++
        expectedLoop VARIABLES fuel m.after

/-- The substitution the specification describes, on a whole value. -/
def expectedSubstitution (VARIABLES : List Variable) (value : JSString) : JSString :=
  expectedLoop VARIABLES (value.length + 1) value

/-- A page without framework markers, holding one `<input>` element with the given value and
no marker attribute, with nothing recorded yet. -/
def plainPage (VARIABLES : List Variable) (value : JSString) : Page :=
  { window := { hasNextData := false, hasGatsby := false, hasNuxt := false, hasReact := false,
                headContent := [] },
    VARIABLES := VARIABLES,
    input := { tagName := "INPUT".toList, isHTMLInputElement := true, value := value,
               programmaticallyChanged := none },
    simulateInputCalls := [], focusCalls := 0, writes := [], dispatched := [], timers := 0,
    rejections := 0 }

/-- The page of `plainPage` with the global `window.React` defined. -/
def reactPage (VARIABLES : List Variable) (value : JSString) : Page :=
  { plainPage VARIABLES value with
    window := { hasNextData := false, hasGatsby := false, hasNuxt := false, hasReact := true,
                headContent := [] } }

/-- A name as the lazy quantifier captures it: scanning the name followed by two closing
braces, `matchBody` stops at the very end, so the name holds no line terminator and the two
closing braces that end the token are the first that follow its opening. -/
def LazyName (n : JSString) : Prop := matchBody (n ++ ['}', '}']) = some (n, [])

/-- No occurrence of `pat` in `X ++ Y` starts inside `X`. -/
def NoStartIn (pat X Y : JSString) : Prop :=
  ∀ X1 X2, X = X1 ++ X2 → X2 ≠ [] → startsWith (X2 ++ Y) pat = false

/-- The condition on the part of `newValue` that the loop has already been through: whatever
follows, the placeholder of no resolved name without `{` starts inside it. -/
def Settled (VARIABLES : List Variable) (D : JSString) : Prop :=
  ∀ b Y, LazyName b → '{' ∉ b → b ∈ names VARIABLES → NoStartIn (placeholder b) D Y

end VARINPUT

namespace VARINPUT

/-! ## The variable store -/

theorem find?_name_isSome (vars : List Variable) (n : JSString) :
    (vars.find? (fun x => decide (x.name = n))).isSome = true ↔ n ∈ names vars := by
  induction vars with
  | nil => simp [names]
  | cons a l ih =>
    by_cases h : a.name = n
    · simp [List.find?, names, h]
    · have h2 : ¬ n = a.name := fun e => h e.symm
      simp [List.find?, names, h, h2]

theorem find?_name_eq_none (vars : List Variable) (n : JSString) :
    vars.find? (fun x => decide (x.name = n)) = none ↔ n ∉ names vars := by
  rw [← find?_name_isSome]
  cases vars.find? (fun x => decide (x.name = n)) <;> simp

theorem updateFirst_length (n v : JSString) (vars : List Variable) :
    (updateFirst n v vars).length = vars.length := by
  induction vars with
  | nil => rfl
  | cons a l ih =>
    by_cases h : a.name = n <;> simp [updateFirst, h, ih]

theorem updateFirst_names (n v : JSString) (vars : List Variable) :
    names (updateFirst n v vars) = names vars := by
  induction vars with
  | nil => rfl
  | cons a l ih =>
    by_cases h : a.name = n
    · simp [updateFirst, h, names]
    · rw [updateFirst, if_neg h]
      simp only [names, List.map_cons] at ih ⊢
      rw [ih]

theorem find?_updateFirst_same (n v : JSString) (vars : List Variable) (h : n ∈ names vars) :
    ((updateFirst n v vars).find? (fun x => decide (x.name = n))).map (fun x => x.value)
      = some v := by
  induction vars with
  | nil => simp [names] at h
  | cons a l ih =>
    by_cases ha : a.name = n
    · simp [updateFirst, ha, List.find?]
    · have h2 : n ∈ names l := by
        simp only [names, List.map_cons, List.mem_cons] at h
        rcases h with h | h
        · exact absurd h.symm ha
        · exact h
      simpa [updateFirst, ha, List.find?] using ih h2

theorem find?_updateFirst_other (n v m : JSString) (vars : List Variable) (h : m ≠ n) :
    ((updateFirst n v vars).find? (fun x => decide (x.name = m))).map (fun x => x.value)
      = (vars.find? (fun x => decide (x.name = m))).map (fun x => x.value) := by
  induction vars with
  | nil => rfl
  | cons a l ih =>
    by_cases ha : a.name = n
    · have hm : ¬ a.name = m := fun e => h (e.symm.trans ha)
      have hm2 : ¬ n = m := fun e => h e.symm
      simp [updateFirst, ha, List.find?, hm2]
    · by_cases hm : a.name = m
      · rw [updateFirst, if_neg ha]
        simp [List.find?, hm]
      · rw [updateFirst, if_neg ha]
        simpa [List.find?, hm] using ih

theorem updateFirst_filter_ne (n v : JSString) (vars : List Variable) :
    (updateFirst n v vars).filter (fun x => decide (x.name ≠ n))
      = vars.filter (fun x => decide (x.name ≠ n)) := by
  induction vars with
  | nil => rfl
  | cons a l ih =>
    by_cases ha : a.name = n
    · simp [updateFirst, ha]
    · rw [updateFirst, if_neg ha]
      simp only [List.filter_cons, ih]

theorem truthy_iff (s : JSString) : truthy s = true ↔ s ≠ [] := by
  cases s <;> simp [truthy]

/-- The variable list after `addOrUpdateVariable` with a non-empty name and value. -/
theorem addOrUpdateVariable_VARIABLES (st : Store) (n v : JSString) (hn : n ≠ [])
    (hv : v ≠ []) :
    (addOrUpdateVariable st n v).VARIABLES =
      if n ∈ names st.VARIABLES then updateFirst n v st.VARIABLES
      else st.VARIABLES ++ [{ name := n, value := v }] := by
  have h1 : truthy n = true := (truthy_iff n).2 hn
  have h2 : truthy v = true := (truthy_iff v).2 hv
  unfold addOrUpdateVariable
  simp only [h1, h2, Bool.not_true, Bool.or_self, Bool.false_eq_true, if_false]
  by_cases h : n ∈ names st.VARIABLES
  · have := (find?_name_isSome st.VARIABLES n).2 h
    cases hf : st.VARIABLES.find? (fun x => decide (x.name = n)) with
    | none => simp [hf] at this
    | some a => simp [h]
  · have := (find?_name_eq_none st.VARIABLES n).2 h
    simp [this, h]

/-- C3: for a variable list (non-empty names and values, as the data model has it) that
contains an entry named `n`, and a non-empty value `v`, `addOrUpdateVariable(n, v)` keeps
the length of the list and its names in their order, so no entry is added; the first entry
named `n` then has value `v`, and the entries with another name are as before. -/
theorem addOrUpdateVariable_existing (st : Store) (n v : JSString)
    (hwf : WellFormed st.VARIABLES) (hmem : n ∈ names st.VARIABLES) (hv : v ≠ []) :
    (addOrUpdateVariable st n v).VARIABLES.length = st.VARIABLES.length ∧
    names (addOrUpdateVariable st n v).VARIABLES = names st.VARIABLES ∧
    ((addOrUpdateVariable st n v).VARIABLES.find? (fun x => decide (x.name = n))).map
      (fun x => x.value) = some v ∧
    (addOrUpdateVariable st n v).VARIABLES.filter (fun x => decide (x.name ≠ n))
      = st.VARIABLES.filter (fun x => decide (x.name ≠ n)) := by
  have hn : n ≠ [] := by
    simp only [names, List.mem_map] at hmem
    obtain ⟨x, hx, rfl⟩ := hmem
    exact (hwf x hx).1
  rw [addOrUpdateVariable_VARIABLES st n v hn hv, if_pos hmem]
  exact ⟨updateFirst_length n v _, updateFirst_names n v _,
    find?_updateFirst_same n v _ hmem, updateFirst_filter_ne n v _⟩

/-- The update of `b` in a list of two variables. -/
theorem addOrUpdateVariable_existing_witness :
    (addOrUpdateVariable ⟨[⟨"a".toList, "1".toList⟩, ⟨"b".toList, "2".toList⟩], []⟩
        "b".toList "3".toList).VARIABLES.length = 2 ∧
    names (addOrUpdateVariable ⟨[⟨"a".toList, "1".toList⟩, ⟨"b".toList, "2".toList⟩], []⟩
        "b".toList "3".toList).VARIABLES = ["a".toList, "b".toList] := by
  have h := addOrUpdateVariable_existing
    ⟨[⟨"a".toList, "1".toList⟩, ⟨"b".toList, "2".toList⟩], []⟩ "b".toList "3".toList
    (by intro x hx; simp at hx; rcases hx with rfl | rfl <;> simp)
    (by simp [names]) (by simp)
  exact ⟨h.1, h.2.1⟩

/-- C5: `addOrUpdateVariable(name, value)` with an empty name or an empty value returns the
state it was given: the in-memory list is unchanged and no `setStorage` call is recorded. -/
theorem addOrUpdateVariable_empty (st : Store) (name value : JSString)
    (h : name = [] ∨ value = []) :
    addOrUpdateVariable st name value = st ∧
    (addOrUpdateVariable st name value).VARIABLES = st.VARIABLES ∧
    (addOrUpdateVariable st name value).setStorageCalls = st.setStorageCalls := by
  have : addOrUpdateVariable st name value = st := by
    rcases h with h | h <;> simp [addOrUpdateVariable, truthy, h]
  simp [this]

/-- The two calls with an empty name and with an empty value. -/
theorem addOrUpdateVariable_empty_witness :
    addOrUpdateVariable ⟨[⟨"a".toList, "1".toList⟩], []⟩ [] "x".toList
      = ⟨[⟨"a".toList, "1".toList⟩], []⟩ ∧
    addOrUpdateVariable ⟨[⟨"a".toList, "1".toList⟩], []⟩ "x".toList []
      = ⟨[⟨"a".toList, "1".toList⟩], []⟩ :=
  ⟨(addOrUpdateVariable_empty _ [] "x".toList (Or.inl rfl)).1,
   (addOrUpdateVariable_empty _ "x".toList [] (Or.inr rfl)).1⟩

/-- C6: `removeVariable(name)` leaves the list as it is when no entry carries the name; in
general the new list is the old one without the entries named `name`: it is a sublist of
the old list (same order), it holds exactly the old entries with another name, each as
often as before, and it is what is handed to `setStorage`. -/
theorem removeVariable_frame (st : Store) (name : JSString) :
    ((∀ v ∈ st.VARIABLES, v.name ≠ name) → (removeVariable st name).VARIABLES = st.VARIABLES) ∧
    (removeVariable st name).VARIABLES.Sublist st.VARIABLES ∧
    (∀ v, v ∈ (removeVariable st name).VARIABLES ↔ v ∈ st.VARIABLES ∧ v.name ≠ name) ∧
    (∀ v, v.name ≠ name →
      (removeVariable st name).VARIABLES.count v = st.VARIABLES.count v) ∧
    (removeVariable st name).setStorageCalls
      = st.setStorageCalls ++ [(removeVariable st name).VARIABLES] := by
  refine ⟨?_, ?_, ?_, ?_, rfl⟩
  · intro h
    simp only [removeVariable]
    exact List.filter_eq_self.2 (fun v hv => by simpa using h v hv)
  · exact List.filter_sublist _
  · intro v
    simp [removeVariable, List.mem_filter]
  · intro v hv
    simp only [removeVariable]
    rw [List.count_filter]
    simpa using hv

/-- Removing `b` from a list that holds only `a`. -/
theorem removeVariable_frame_witness :
    (removeVariable ⟨[⟨"a".toList, "1".toList⟩], []⟩ "b".toList).VARIABLES
      = [⟨"a".toList, "1".toList⟩] :=
  (removeVariable_frame ⟨[⟨"a".toList, "1".toList⟩], []⟩ "b".toList).1
    (by intro v hv; simp at hv; subst hv; decide)

/-- C10: for every variable list, duplicates allowed, every non-empty name `n`, non-empty
value `v` and default `d`: after `addOrUpdateVariable(n, v)` the lookup of `n` returns `v`,
and the lookup of any other name `m` returns what it returned before. -/
theorem getVariableFromList_addOrUpdateVariable (st : Store) (n v : JSString) (d : JSValue)
    (hn : n ≠ []) (hv : v ≠ []) :
    getVariableFromList (addOrUpdateVariable st n v).VARIABLES n d = JSValue.str v ∧
    ∀ m, m ≠ n →
      getVariableFromList (addOrUpdateVariable st n v).VARIABLES m d
        = getVariableFromList st.VARIABLES m d := by
  rw [addOrUpdateVariable_VARIABLES st n v hn hv]
  by_cases h : n ∈ names st.VARIABLES
  · rw [if_pos h]
    constructor
    · have := find?_updateFirst_same n v st.VARIABLES h
      unfold getVariableFromList
      cases hf : (updateFirst n v st.VARIABLES).find? (fun x => decide (x.name = n)) with
      | none => simp [hf] at this
      | some a => simp [hf] at this; simp [this]
    · intro m hm
      have := find?_updateFirst_other n v m st.VARIABLES hm
      unfold getVariableFromList
      cases hf : (updateFirst n v st.VARIABLES).find? (fun x => decide (x.name = m)) <;>
        cases hg : st.VARIABLES.find? (fun x => decide (x.name = m)) <;>
        simp [hf, hg] at this ⊢
      exact this
  · rw [if_neg h]
    have hnone := (find?_name_eq_none st.VARIABLES n).2 h
    constructor
    · simp [getVariableFromList, List.find?_append, hnone]
    · intro m hm
      have hm2 : ¬ n = m := fun e => hm e.symm
      unfold getVariableFromList
      cases hg : st.VARIABLES.find? (fun x => decide (x.name = m)) <;>
        simp [List.find?_append, hg, List.find?, hm2]

/-- The lookup of `a` after its update in a list with two entries named `a`. -/
theorem getVariableFromList_addOrUpdateVariable_witness :
    getVariableFromList
      (addOrUpdateVariable ⟨[⟨"a".toList, "1".toList⟩, ⟨"a".toList, "2".toList⟩], []⟩
        "a".toList "3".toList).VARIABLES "a".toList JSValue.undefined
      = JSValue.str "3".toList :=
  (getVariableFromList_addOrUpdateVariable _ "a".toList "3".toList JSValue.undefined
    (by simp) (by simp)).1

/-! ## What the store operations maintain -/

theorem wellFormed_getVariableList (r : StorageResult) : WellFormed (getVariableList r) := by
  intro v hv
  unfold getVariableList at hv
  split at hv
  · simp only [List.mem_filter, Bool.and_eq_true] at hv
    exact ⟨(truthy_iff _).1 hv.2.1, (truthy_iff _).1 hv.2.2⟩
  · simp at hv

theorem wellFormed_updateFirst (n v : JSString) (vars : List Variable) (hv : v ≠ [])
    (h : WellFormed vars) : WellFormed (updateFirst n v vars) := by
  induction vars with
  | nil => exact h
  | cons a l ih =>
    have hl : WellFormed l := fun x hx => h x (List.mem_cons_of_mem _ hx)
    have ha := h a (List.mem_cons_self _ _)
    intro x hx
    unfold updateFirst at hx
    split at hx
    · simp only [List.mem_cons] at hx
      rcases hx with rfl | hx
      · exact ⟨ha.1, hv⟩
      · exact hl x hx
    · simp only [List.mem_cons] at hx
      rcases hx with rfl | hx
      · exact ha
      · exact ih hl x hx

theorem wellFormed_addOrUpdateVariable (st : Store) (n v : JSString)
    (h : WellFormed st.VARIABLES) : WellFormed (addOrUpdateVariable st n v).VARIABLES := by
  by_cases hn : n = []
  · rw [show addOrUpdateVariable st n v = st by simp [addOrUpdateVariable, truthy, hn]]
    exact h
  by_cases hv : v = []
  · rw [show addOrUpdateVariable st n v = st by simp [addOrUpdateVariable, truthy, hv]]
    exact h
  rw [addOrUpdateVariable_VARIABLES st n v hn hv]
  split
  · exact wellFormed_updateFirst n v _ hv h
  · intro x hx
    simp only [List.mem_append, List.mem_singleton] at hx
    rcases hx with hx | rfl
    · exact h x hx
    · exact ⟨hn, hv⟩

theorem wellFormed_removeVariable (st : Store) (n : JSString) (h : WellFormed st.VARIABLES) :
    WellFormed (removeVariable st n).VARIABLES := by
  intro x hx
  simp only [removeVariable, List.mem_filter] at hx
  exact h x hx.1

theorem wellFormed_editVariable (st : Store) (index : Nat)
    (formValues : Option (JSString × JSString)) (h : WellFormed st.VARIABLES) :
    WellFormed (editVariable st index formValues).VARIABLES := by
  unfold editVariable
  split
  · split
    · exact h
    · rename_i varName varValue
      split
      · rename_i ht
        simp only [Bool.and_eq_true] at ht
        intro x hx
        rcases List.mem_or_eq_of_mem_set hx with hx | rfl
        · exact wellFormed_addOrUpdateVariable st varName varValue h x hx
        · exact ⟨(truthy_iff _).1 ht.1, (truthy_iff _).1 ht.2⟩
      · exact h
  · exact h

/-- `addOrUpdateVariable` keeps the names of a list distinct. -/
theorem nodup_addOrUpdateVariable (st : Store) (n v : JSString)
    (h : (names st.VARIABLES).Nodup) : (names (addOrUpdateVariable st n v).VARIABLES).Nodup := by
  by_cases hn : n = []
  · rw [show addOrUpdateVariable st n v = st by simp [addOrUpdateVariable, truthy, hn]]
    exact h
  by_cases hv : v = []
  · rw [show addOrUpdateVariable st n v = st by simp [addOrUpdateVariable, truthy, hv]]
    exact h
  rw [addOrUpdateVariable_VARIABLES st n v hn hv]
  split
  · rw [updateFirst_names]
    exact h
  · rename_i hmem
    simp only [names, List.map_append, List.map_cons, List.map_nil] at hmem ⊢
    rw [List.nodup_append]
    refine ⟨h, List.nodup_singleton _, ?_⟩
    intro a ha hb
    simp only [List.mem_singleton] at hb
    subst hb
    exact hmem ha

/-- `removeVariable` keeps the names of a list distinct. -/
theorem nodup_removeVariable (st : Store) (n : JSString) (h : (names st.VARIABLES).Nodup) :
    (names (removeVariable st n).VARIABLES).Nodup := by
  simp only [removeVariable, names]
  exact List.Nodup.sublist (List.Sublist.map _ (List.filter_sublist _)) h

/-- The edit action keeps the names distinct when the form comes back with the name the
edited entry already has. -/
theorem nodup_editVariable_same_name (st : Store) (index : Nat) (varName varValue : JSString)
    (h : (names st.VARIABLES).Nodup)
    (hname : (st.VARIABLES.get? index).map (fun x => x.name) = some varName) :
    (names (editVariable st index (some (varName, varValue))).VARIABLES).Nodup := by
  by_cases hidx : index < st.VARIABLES.length
  · by_cases ht : (truthy varName && truthy varValue) = true
    · simp only [editVariable, if_pos hidx, if_pos ht]
      simp only [Bool.and_eq_true] at ht
      have hn := (truthy_iff _).1 ht.1
      have hv := (truthy_iff _).1 ht.2
      have hg : (names st.VARIABLES)[index]? = some varName := by
        simpa [names, List.getElem?_map] using hname
      have hmem : varName ∈ names st.VARIABLES := List.getElem?_mem hg
      simp only [addOrUpdateVariable_VARIABLES st varName varValue hn hv, if_pos hmem]
      have hnames : names ((updateFirst varName varValue st.VARIABLES).set index
          { name := varName, value := varValue }) = names st.VARIABLES := by
        have e := updateFirst_names varName varValue st.VARIABLES
        simp only [names, List.map_set] at e ⊢
        rw [e]
        apply List.ext_getElem?
        intro i
        by_cases hi : index = i
        · subst hi
          rw [List.getElem?_set_self (by simpa using hidx)]
          exact hg.symm
        · rw [List.getElem?_set_ne hi]
      rw [hnames]
      exact h
    · simp only [editVariable, if_pos hidx, if_neg ht]
      exact h
  · simp only [editVariable, if_neg hidx]
    exact h

/-! ## The pattern scan and `replace` -/

theorem matchBody_eq_some (s name after : JSString) (h : matchBody s = some (name, after)) :
    s = name ++ '}' :: '}' :: after := by
  induction s generalizing name with
  | nil => simp [matchBody] at h
  | cons c rest ih =>
    unfold matchBody at h
    split at h
    · rename_i hc
      obtain ⟨hc1, hc2⟩ := hc
      simp only [Option.some.injEq, Prod.mk.injEq] at h
      obtain ⟨rfl, rfl⟩ := h
      cases rest with
      | nil => simp at hc2
      | cons d rest2 =>
        simp only [List.head?_cons, Option.some.injEq] at hc2
        simp [hc1, hc2]
    · split at h
      · simp at h
      · cases hm : matchBody rest with
        | none => simp [hm] at h
        | some r =>
          obtain ⟨n1, a1⟩ := r
          simp only [hm, Option.some.injEq, Prod.mk.injEq] at h
          obtain ⟨rfl, rfl⟩ := h
          rw [ih n1 hm]
          simp

theorem matchHere_eq_some (s name after : JSString) (h : matchHere s = some (name, after)) :
    s = placeholder name ++ after := by
  unfold matchHere at h
  split at h
  · rename_i c d rest
    split at h
    · rename_i hc
      have := matchBody_eq_some rest name after h
      simp [placeholder, hc.1, hc.2, this]
    · simp at h
  · simp at h

/-- A successful `exec` splits the scanned text into the skipped text, the matched token
and the text that is left. -/
theorem exec_eq_some (s : JSString) (m : RegExpMatch) (h : exec s = some m) :
    s = m.before ++ placeholder m.name ++ m.after := by
  induction s generalizing m with
  | nil => simp [exec] at h
  | cons c rest ih =>
    unfold exec at h
    split at h
    · rename_i name after hm
      simp only [Option.some.injEq] at h
      subst h
      simpa using matchHere_eq_some _ _ _ hm
    · cases he : exec rest with
      | none => simp [he] at h
      | some m1 =>
        simp only [he, Option.some.injEq] at h
        subst h
        have := ih m1 he
        simp only [List.cons_append]
        rw [← this]

theorem exec_after_length (s : JSString) (m : RegExpMatch) (h : exec s = some m) :
    m.after.length + 4 ≤ s.length := by
  have := congrArg List.length (exec_eq_some s m h)
  simp [placeholder] at this
  omega

/-- The loop of lines 222-228 ends whenever the fuel exceeds the length of the text that is
left to scan. -/
theorem substituteLoop_isSome (VARIABLES : List Variable) (fuel : Nat) (rest newValue : JSString)
    (hasMatch : Bool) (h : rest.length < fuel) :
    (substituteLoop VARIABLES fuel rest newValue hasMatch).isSome = true := by
  induction fuel generalizing rest newValue hasMatch with
  | zero => omega
  | succ k ih =>
    unfold substituteLoop
    cases he : exec rest with
    | none => simp
    | some m =>
      simp only
      apply ih
      have := exec_after_length rest m he
      omega

/-- The computation of `newValue` and `hasMatch` always ends. -/
theorem substitute_isSome (VARIABLES : List Variable) (value : JSString) :
    (substitute VARIABLES value).isSome = true :=
  substituteLoop_isSome VARIABLES _ value value false (Nat.lt_succ_self _)

theorem startsWith_eq_true (s pat : JSString) (h : startsWith s pat = true) :
    s = pat ++ s.drop pat.length := by
  induction pat generalizing s with
  | nil => simp
  | cons q pat ih =>
    cases s with
    | nil => simp [startsWith] at h
    | cons c s =>
      simp only [startsWith, Bool.and_eq_true, decide_eq_true_eq] at h
      obtain ⟨rfl, h2⟩ := h
      have := ih s h2
      simp only [List.length_cons, List.drop_succ_cons, List.cons_append]
      rw [← this]

theorem splitAtFirst_eq_some (pat s preceding following : JSString)
    (h : splitAtFirst pat s = some (preceding, following)) :
    s = preceding ++ pat ++ following := by
  induction s generalizing preceding with
  | nil =>
    unfold splitAtFirst at h
    split at h
    · rename_i hp
      simp only [Option.some.injEq, Prod.mk.injEq] at h
      obtain ⟨rfl, rfl⟩ := h
      simp [hp]
    · simp at h
  | cons c s ih =>
    unfold splitAtFirst at h
    split at h
    · rename_i hs
      simp only [Option.some.injEq, Prod.mk.injEq] at h
      obtain ⟨rfl, rfl⟩ := h
      simpa using startsWith_eq_true (c :: s) pat hs
    · cases hr : splitAtFirst pat s with
      | none => simp [hr] at h
      | some r =>
        obtain ⟨a, b⟩ := r
        simp only [hr, Option.some.injEq, Prod.mk.injEq] at h
        obtain ⟨rfl, rfl⟩ := h
        have := ih a hr
        simp only [List.cons_append]
        rw [← this]

/-- A replacement text without `$` is inserted as it is. -/
theorem getSubstitution_of_no_dollar (matched preceding following r : JSString)
    (h : '$' ∉ r) : getSubstitution matched preceding following r = r := by
  induction r with
  | nil => rfl
  | cons c rest ih =>
    simp only [List.mem_cons, not_or] at h
    have hc : ¬ c = '$' := fun e => h.1 e.symm
    unfold getSubstitution
    rw [if_neg hc, ih h.2]

/-- Replacing a text without `$` by itself changes nothing. -/
theorem replace_self (s pat : JSString) (h : '$' ∉ pat) : replace s pat pat = s := by
  unfold replace
  cases hs : splitAtFirst pat s with
  | none => rfl
  | some r =>
    obtain ⟨a, b⟩ := r
    simp only
    rw [getSubstitution_of_no_dollar _ _ _ _ h]
    exact (splitAtFirst_eq_some pat s a b hs).symm

theorem dollar_not_mem_placeholder (n : JSString) (h : '$' ∉ n) : '$' ∉ placeholder n := by
  have h1 : ¬ '$' = '{' := by decide
  have h2 : ¬ '$' = '}' := by decide
  simp [placeholder, h, h1, h2]

theorem lookupOrPlaceholder_of_not_mem (VARIABLES : List Variable) (n : JSString)
    (h : n ∉ names VARIABLES) : lookupOrPlaceholder VARIABLES n = placeholder n := by
  simp [lookupOrPlaceholder, getVariableFromList, (find?_name_eq_none VARIABLES n).2 h]

/-- When no token resolves and no token name holds a `$`, the loop leaves `newValue` as it
is, and `hasMatch` tells whether a token was found. -/
theorem substituteLoop_unresolved (VARIABLES : List Variable) (fuel : Nat)
    (rest newValue : JSString) (hasMatch : Bool) (hfuel : rest.length < fuel)
    (h : ∀ n ∈ tokenNames fuel rest, n ∉ names VARIABLES ∧ '$' ∉ n) :
    substituteLoop VARIABLES fuel rest newValue hasMatch
      = some (newValue, hasMatch || !(tokenNames fuel rest).isEmpty) := by
  induction fuel generalizing rest newValue hasMatch with
  | zero => omega
  | succ k ih =>
    unfold substituteLoop
    unfold tokenNames at h ⊢
    cases he : exec rest with
    | none => simp
    | some m =>
      simp only [he] at h ⊢
      have hm := h m.name (List.mem_cons_self _ _)
      rw [lookupOrPlaceholder_of_not_mem _ _ hm.1,
        replace_self _ _ (dollar_not_mem_placeholder _ hm.2)]
      have hlen := exec_after_length rest m he
      rw [ih m.after newValue true (by omega)
        (fun n hn => h n (List.mem_cons_of_mem _ hn))]
      simp

theorem substitute_of_exec_none (VARIABLES : List Variable) (value : JSString)
    (h : exec value = none) : substitute VARIABLES value = some (value, false) := by
  simp [substitute, substituteLoop, h]

theorem tokens_eq_nil_iff (value : JSString) : tokens value = [] ↔ exec value = none := by
  unfold tokens tokenNames
  cases exec value <;> simp

/-! ## The listener -/

theorem inputListener_of_exec_none (fuel : Nat) (p : Page) (h : exec p.input.value = none) :
    inputListener (fuel + 1) p = Outcome.returned p := by
  unfold inputListener
  split
  · rw [substitute_of_exec_none _ _ h]
    simp
  · rfl

/-- One run of the listener on a text-entry element whose tokens all fail to resolve. -/
theorem inputListener_step_unresolved (fuel : Nat) (p : Page)
    (htag : toLowerCase p.input.tagName = "input".toList ∨
      toLowerCase p.input.tagName = "textarea".toList)
    (h : ∀ n ∈ tokens p.input.value, n ∉ names p.VARIABLES ∧ '$' ∉ n) :
    inputListener (fuel + 1) p =
      if tokens p.input.value = [] then Outcome.returned p
      else asyncResult (simulateInput (inputListener fuel) p p.input.value) := by
  unfold inputListener
  rw [if_pos htag]
  unfold substitute
  rw [substituteLoop_unresolved _ _ _ _ _ (Nat.lt_succ_self _) h]
  unfold tokens
  cases tokenNames (p.input.value.length + 1) p.input.value <;> simp

/-! ## `simulateInput` and its marker -/

theorem simulateInput_of_marker (listeners : Page → Outcome) (p : Page) (value : JSString)
    (h : p.input.programmaticallyChanged = some strTrue) :
    simulateInput listeners p value =
      Outcome.returned { p with simulateInputCalls := p.simulateInputCalls ++ [value] } := by
  unfold simulateInput
  simp [h]

theorem dispatchThenMark_returned (listeners : Page → Outcome) (q : Page) (e : SyntheticEvent)
    (p1 : Page) (h : dispatchThenMark listeners q e = Outcome.returned p1) :
    p1.input.programmaticallyChanged = some strTrue := by
  unfold dispatchThenMark at h
  split at h
  · simp only [Outcome.returned.injEq] at h
    subst h
    rfl
  · simp only [Outcome.returned.injEq] at h
    subst h
    rfl
  · simp at h

theorem simulateInput_returned_marker (listeners : Page → Outcome) (p : Page)
    (value : JSString) (p1 : Page) (h : simulateInput listeners p value = Outcome.returned p1) :
    p1.input.programmaticallyChanged = some strTrue := by
  unfold simulateInput at h
  simp only at h
  split at h
  · rename_i hm
    simp only [Outcome.returned.injEq] at h
    subst h
    exact hm
  · split at h
    · exact dispatchThenMark_returned _ _ _ _ h
    · exact dispatchThenMark_returned _ _ _ _ h
    · split at h
      · simp only [Outcome.returned.injEq] at h
        subst h
        rfl
      · simp at h

/-- C8: on an element whose `data-programmatically-changed` attribute is `'true'`,
`simulateInput` returns at once whatever the framework: the element (value and attributes)
is as before, and no focus, write, event, timer or rejection is recorded.  Any
`simulateInput` call that returns leaves the attribute at `'true'`, so the next call on the
page it leaves is such a no-op.  A call on an unmarked element does return after its write:
with React, Next.js or Gatsby on an input element whatever the listeners, and with Nuxt.js
or no framework, under the body listener of the program, when the written value holds no
token or the element is no text-entry element; the value is then written, once, and the
attribute is `'true'`. -/
theorem simulateInput_marker (listeners : Page → Outcome) (p : Page) (value : JSString)
    (fuel : Nat) :
    (p.input.programmaticallyChanged = some strTrue →
      simulateInput listeners p value =
        Outcome.returned { p with simulateInputCalls := p.simulateInputCalls ++ [value] }) ∧
    (∀ p1, simulateInput listeners p value = Outcome.returned p1 →
      p1.input.programmaticallyChanged = some strTrue ∧
      ∀ (listeners2 : Page → Outcome) (value2 : JSString),
        simulateInput listeners2 p1 value2 =
          Outcome.returned { p1 with simulateInputCalls := p1.simulateInputCalls ++ [value2] }) ∧
    (p.input.programmaticallyChanged ≠ some strTrue →
      detectFramework p.window ≠ Framework.nuxtJs →
      detectFramework p.window ≠ Framework.noFramework →
      p.input.isHTMLInputElement = true →
      simulateInput listeners p value =
        Outcome.returned (setMarker (writeValue
          { p with simulateInputCalls := p.simulateInputCalls ++ [value],
                   focusCalls := p.focusCalls + 1 } value))) ∧
    (p.input.programmaticallyChanged ≠ some strTrue →
      (detectFramework p.window = Framework.nuxtJs ∨
        detectFramework p.window = Framework.noFramework) →
      (exec value = none ∨
        ¬ (toLowerCase p.input.tagName = "input".toList ∨
          toLowerCase p.input.tagName = "textarea".toList)) →
      ∃ p1, simulateInput (inputListener (fuel + 1)) p value = Outcome.returned p1 ∧
        p1.input.programmaticallyChanged = some strTrue ∧
        p1.input.value = value ∧ p1.writes = p.writes ++ [value] ∧
        p1.focusCalls = p.focusCalls + 1 ∧ p1.dispatched.length = p.dispatched.length + 1 ∧
        p1.simulateInputCalls = p.simulateInputCalls ++ [value]) := by
  refine ⟨simulateInput_of_marker listeners p value, ?_, ?_, ?_⟩
  · intro p1 h1
    have hm := simulateInput_returned_marker listeners p value p1 h1
    exact ⟨hm, fun l2 v2 => simulateInput_of_marker l2 p1 v2 hm⟩
  · intro hm h1 h2 hi
    unfold simulateInput
    simp only [hm, if_false]
    cases hd : detectFramework p.window
    case nuxtJs => exact absurd hd h1
    case noFramework => exact absurd hd h2
    all_goals simp [hi]
  · intro hm hfw hq
    have hret : ∀ q : Page, q.input.tagName = p.input.tagName → q.input.value = value →
        inputListener (fuel + 1) q = Outcome.returned q := by
      intro q ht hv
      rcases hq with hq | hq
      · exact inputListener_of_exec_none fuel q (by rw [hv]; exact hq)
      · unfold inputListener
        rw [ht, if_neg hq]
    unfold simulateInput
    simp only [hm, if_false]
    rcases hfw with hd | hd
    · rw [hd]
      simp only [dispatchThenMark]
      rw [hret]
      · exact ⟨_, rfl, rfl, rfl, rfl, rfl, by simp [writeValue, setMarker], rfl⟩
      · rfl
      · rfl
    · rw [hd]
      simp only [dispatchThenMark]
      rw [hret]
      · exact ⟨_, rfl, rfl, rfl, rfl, rfl, by simp [writeValue, setMarker], rfl⟩
      · rfl
      · rfl

/-- A call on a marked element; a writing call on a page with React; and a writing call on a
page without framework under the body listener, the written value holding no token. -/
theorem simulateInput_marker_witness :
    simulateInput (inputListener 1)
        (setMarker (reactPage [] "a".toList)) "b".toList =
      Outcome.returned { setMarker (reactPage [] "a".toList) with
        simulateInputCalls := ["b".toList] } ∧
    simulateInput (inputListener 1) (reactPage [] "a".toList) "b".toList =
      Outcome.returned (setMarker (writeValue
        { reactPage [] "a".toList with
          simulateInputCalls := (reactPage [] "a".toList).simulateInputCalls ++ ["b".toList],
          focusCalls := (reactPage [] "a".toList).focusCalls + 1 } "b".toList)) ∧
    ∃ p1, simulateInput (inputListener (0 + 1)) (plainPage [] "a".toList) "b".toList
        = Outcome.returned p1 ∧
      p1.input.programmaticallyChanged = some strTrue ∧
      p1.input.value = "b".toList ∧ p1.writes = (plainPage [] "a".toList).writes ++ ["b".toList] ∧
      p1.focusCalls = (plainPage [] "a".toList).focusCalls + 1 ∧
      p1.dispatched.length = (plainPage [] "a".toList).dispatched.length + 1 ∧
      p1.simulateInputCalls = (plainPage [] "a".toList).simulateInputCalls ++ ["b".toList] :=
  ⟨(simulateInput_marker (inputListener 1) (setMarker (reactPage [] "a".toList))
      "b".toList 0).1 (by decide),
   (simulateInput_marker (inputListener 1) (reactPage [] "a".toList)
      "b".toList 0).2.2.1 (by decide) (by decide) (by decide) (by decide),
   (simulateInput_marker (inputListener 1) (plainPage [] "a".toList)
      "b".toList 0).2.2.2 (by decide) (Or.inr (by decide)) (Or.inl (by decide))⟩

/-! ## Tokens that do not resolve -/

/-- The loop ends with `hasMatch` telling whether the pattern found a token. -/
theorem substituteLoop_hasMatch (VARIABLES : List Variable) (fuel : Nat)
    (rest newValue : JSString) (hasMatch : Bool) (hfuel : rest.length < fuel) :
    ∃ r, substituteLoop VARIABLES fuel rest newValue hasMatch
      = some (r, hasMatch || !(tokenNames fuel rest).isEmpty) := by
  induction fuel generalizing rest newValue hasMatch with
  | zero => omega
  | succ k ih =>
    unfold substituteLoop tokenNames
    cases he : exec rest with
    | none => exact ⟨newValue, by simp⟩
    | some m =>
      simp only
      have hlen := exec_after_length rest m he
      obtain ⟨r, hr⟩ := ih m.after
        (replace newValue (placeholder m.name) (lookupOrPlaceholder VARIABLES m.name)) true
        (by omega)
      exact ⟨r, by rw [hr]; simp⟩

/-- One run of the listener on a text-entry element: `simulateInput` is called exactly when
the value holds a token. -/
theorem inputListener_step (fuel : Nat) (p : Page)
    (htag : toLowerCase p.input.tagName = "input".toList ∨
      toLowerCase p.input.tagName = "textarea".toList) :
    (tokens p.input.value = [] → inputListener (fuel + 1) p = Outcome.returned p) ∧
    (tokens p.input.value ≠ [] →
      ∃ newValue, simulatorArgument p.VARIABLES p.input.value = some newValue ∧
        inputListener (fuel + 1) p =
          asyncResult (simulateInput (inputListener fuel) p newValue)) := by
  obtain ⟨r, hr⟩ := substituteLoop_hasMatch p.VARIABLES (p.input.value.length + 1)
    p.input.value p.input.value false (Nat.lt_succ_self _)
  constructor
  · intro h0
    exact inputListener_of_exec_none fuel p ((tokens_eq_nil_iff _).1 h0)
  · intro h1
    have hb : (false || !(tokenNames (p.input.value.length + 1) p.input.value).isEmpty)
        = true := by
      unfold tokens at h1
      cases ht : tokenNames (p.input.value.length + 1) p.input.value with
      | nil => exact absurd ht h1
      | cons a l => rfl
    rw [hb] at hr
    refine ⟨r, ?_, ?_⟩
    · unfold simulatorArgument substitute
      rw [hr]
    · unfold inputListener
      rw [if_pos htag]
      unfold substitute
      rw [hr]
      simp

theorem asyncResult_page_input (o : Outcome) :
    (asyncResult o).page.input = o.page.input := by
  cases o <;> rfl

theorem dispatchThenMark_page_value (listeners : Page → Outcome) (q : Page)
    (e : SyntheticEvent) :
    (dispatchThenMark listeners q e).page.input.value
      = (listeners { q with dispatched := q.dispatched ++ [e] }).page.input.value := by
  unfold dispatchThenMark
  cases listeners { q with dispatched := q.dispatched ++ [e] } <;> rfl

/-- A `simulateInput` call that hands the element its own value leaves the value as it was,
provided the listeners of the dispatched event do. -/
theorem simulateInput_page_value (listeners : Page → Outcome) (p : Page)
    (hl : ∀ q : Page, q.input.value = p.input.value → q.VARIABLES = p.VARIABLES →
      (listeners q).page.input.value = p.input.value) :
    (simulateInput listeners p p.input.value).page.input.value = p.input.value := by
  unfold simulateInput
  simp only
  split
  · rfl
  · split
    · rw [dispatchThenMark_page_value]
      exact hl _ rfl rfl
    · rw [dispatchThenMark_page_value]
      exact hl _ rfl rfl
    · split <;> rfl

/-- As long as no token resolves and no token name holds a `$`, a run of the listener leaves
the value of the element as it was, whatever the framework and however the run ends. -/
theorem inputListener_page_value (fuel : Nat) (p : Page)
    (h : ∀ n ∈ tokens p.input.value, n ∉ names p.VARIABLES ∧ '$' ∉ n) :
    (inputListener fuel p).page.input.value = p.input.value := by
  induction fuel generalizing p with
  | zero => rfl
  | succ k ih =>
    by_cases htag : toLowerCase p.input.tagName = "input".toList ∨
        toLowerCase p.input.tagName = "textarea".toList
    · rw [inputListener_step_unresolved k p htag h]
      split
      · rfl
      · rw [asyncResult_page_input]
        apply simulateInput_page_value
        intro q hv hvars
        rw [← hv]
        apply ih
        rw [hv, hvars]
        exact h
    · unfold inputListener
      rw [if_neg htag]
      rfl

/-- C2, as the code has it: on an input or textarea the listener returns without calling
`simulateInput` only when the value holds no token at all; when it holds one, resolved or
not (as `{{unknown}}` is not, with an empty list), the listener does call `simulateInput`.
When every token fails to resolve and no token name contains `$`, the string handed over is
the element's value as it is, and the element's value is left as it was, whatever the
framework and however the run ends. -/
theorem inputListener_unresolved (fuel : Nat) (p : Page)
    (htag : toLowerCase p.input.tagName = "input".toList ∨
      toLowerCase p.input.tagName = "textarea".toList) :
    (tokens p.input.value = [] → inputListener (fuel + 1) p = Outcome.returned p) ∧
    (tokens p.input.value ≠ [] →
      ∃ newValue, simulatorArgument p.VARIABLES p.input.value = some newValue ∧
        inputListener (fuel + 1) p =
          asyncResult (simulateInput (inputListener fuel) p newValue)) ∧
    ((∀ n ∈ tokens p.input.value, n ∉ names p.VARIABLES ∧ '$' ∉ n) →
      (tokens p.input.value ≠ [] →
        simulatorArgument p.VARIABLES p.input.value = some p.input.value ∧
        inputListener (fuel + 1) p =
          asyncResult (simulateInput (inputListener fuel) p p.input.value)) ∧
      (inputListener (fuel + 1) p).page.input.value = p.input.value ∧
      (inputListener fuel p).page.input.value = p.input.value) := by
  refine ⟨(inputListener_step fuel p htag).1, (inputListener_step fuel p htag).2, ?_⟩
  intro h
  have hstep := inputListener_step_unresolved fuel p htag h
  refine ⟨fun h1 => ⟨?_, by rw [hstep, if_neg h1]⟩,
    inputListener_page_value (fuel + 1) p h, inputListener_page_value fuel p h⟩
  unfold simulatorArgument substitute
  rw [substituteLoop_unresolved _ _ _ _ _ (Nat.lt_succ_self _) h]
  unfold tokens at h1
  cases ht : tokenNames (p.input.value.length + 1) p.input.value with
  | nil => exact absurd ht h1
  | cons a l => simp

/-- The value with the one unresolved token, on a page with React and on a page without
framework. -/
theorem inputListener_unresolved_witness :
    simulatorArgument [] "\x7b\x7bunknown\x7d\x7d".toList
      = some "\x7b\x7bunknown\x7d\x7d".toList ∧
    (inputListener (0 + 1) (reactPage [] "\x7b\x7bunknown\x7d\x7d".toList)).page.input.value
      = "\x7b\x7bunknown\x7d\x7d".toList ∧
    (inputListener (7 + 1) (plainPage [] "\x7b\x7bunknown\x7d\x7d".toList)).page.input.value
      = "\x7b\x7bunknown\x7d\x7d".toList :=
  ⟨(((inputListener_unresolved 0 (reactPage [] "\x7b\x7bunknown\x7d\x7d".toList)
      (Or.inl (by decide))).2.2 (by decide)).1 (by decide)).1,
   ((inputListener_unresolved 0 (reactPage [] "\x7b\x7bunknown\x7d\x7d".toList)
      (Or.inl (by decide))).2.2 (by decide)).2.1,
   ((inputListener_unresolved 7 (plainPage [] "\x7b\x7bunknown\x7d\x7d".toList)
      (Or.inl (by decide))).2.2 (by decide)).2.1⟩

/-- C2, as the specification words it, fails: for the value `{{unknown}}` and an empty
variable list the only token does not resolve, yet the listener calls `simulateInput`. -/
theorem unknown_token_reaches_simulateInput :
    (∀ n ∈ tokens "\x7b\x7bunknown\x7d\x7d".toList, n ∉ names []) ∧
    simulatorArgument [] "\x7b\x7bunknown\x7d\x7d".toList ≠ none ∧
    inputListener 1 (reactPage [] "\x7b\x7bunknown\x7d\x7d".toList) =
      Outcome.returned (setMarker (writeValue
        { reactPage [] "\x7b\x7bunknown\x7d\x7d".toList with
          simulateInputCalls := ["\x7b\x7bunknown\x7d\x7d".toList], focusCalls := 1 }
        "\x7b\x7bunknown\x7d\x7d".toList)) := by
  refine ⟨by decide, by decide, by decide⟩

/-! ## `Hello {{user}}` -/

theorem exec_hello_user :
    exec "Hello \x7b\x7buser\x7d\x7d".toList
      = some { before := "Hello ".toList, name := "user".toList, after := [] } := by
  decide

theorem replace_hello_user :
    replace "Hello \x7b\x7buser\x7d\x7d".toList (placeholder "user".toList) "World".toList
      = "Hello World".toList := by
  decide

theorem substitute_hello_user (VARIABLES : List Variable)
    (h : getVariableFromList VARIABLES "user".toList JSValue.undefined
      = JSValue.str "World".toList) :
    substitute VARIABLES "Hello \x7b\x7buser\x7d\x7d".toList
      = some ("Hello World".toList, true) := by
  have hl : lookupOrPlaceholder VARIABLES "user".toList = "World".toList := by
    unfold lookupOrPlaceholder
    rw [h]
    rfl
  have hlen : ("Hello \x7b\x7buser\x7d\x7d".toList).length + 1 = 13 + 1 + 1 := by decide
  unfold substitute
  rw [hlen]
  have e2 : exec ([] : JSString) = none := rfl
  simp only [substituteLoop, exec_hello_user, hl, replace_hello_user, e2]

/-- C7: when the lookup of `user` in the variable list gives `World`, an input event on an
input or textarea with value `Hello {{user}}` makes the listener call `simulateInput` with
the string `Hello World`, and with nothing else: the run returns, whatever the framework and
the attributes of the element, with exactly this one call added to the record. -/
theorem inputListener_hello_user (fuel : Nat) (p : Page)
    (htag : toLowerCase p.input.tagName = "input".toList ∨
      toLowerCase p.input.tagName = "textarea".toList)
    (hvar : getVariableFromList p.VARIABLES "user".toList JSValue.undefined
      = JSValue.str "World".toList)
    (hval : p.input.value = "Hello \x7b\x7buser\x7d\x7d".toList) :
    simulatorArgument p.VARIABLES p.input.value = some "Hello World".toList ∧
    ∃ p1, inputListener (fuel + 2) p = Outcome.returned p1 ∧
      p1.simulateInputCalls = p.simulateInputCalls ++ ["Hello World".toList] := by
  have hsub := substitute_hello_user p.VARIABLES hvar
  have hnone : exec "Hello World".toList = none := by decide
  refine ⟨by unfold simulatorArgument; rw [hval, hsub], ?_⟩
  have hin : ∀ q : Page, q.input.value = "Hello World".toList →
      inputListener (fuel + 1) q = Outcome.returned q :=
    fun q hq => inputListener_of_exec_none fuel q (by rw [hq]; exact hnone)
  unfold inputListener
  rw [if_pos htag, hval, hsub]
  simp only [if_true]
  unfold simulateInput
  simp only
  split
  · exact ⟨_, rfl, rfl⟩
  · split
    · unfold dispatchThenMark
      rw [hin _ rfl]
      exact ⟨_, rfl, rfl⟩
    · unfold dispatchThenMark
      rw [hin _ rfl]
      exact ⟨_, rfl, rfl⟩
    · split
      · exact ⟨_, rfl, rfl⟩
      · exact ⟨_, rfl, rfl⟩

/-- The event on a page without framework. -/
theorem inputListener_hello_user_witness :
    ∃ p1, inputListener 2
        (plainPage [⟨"user".toList, "World".toList⟩] "Hello \x7b\x7buser\x7d\x7d".toList)
        = Outcome.returned p1 ∧
      p1.simulateInputCalls = [] ++ ["Hello World".toList] :=
  (inputListener_hello_user 0
    (plainPage [⟨"user".toList, "World".toList⟩] "Hello \x7b\x7buser\x7d\x7d".toList)
    (Or.inl (by decide)) (by decide) rfl).2

/-! ## Re-entry of the listener through the dispatched event -/

/-- Without a framework, or with Nuxt.js, a text-entry element without the marker whose
value holds a token and only unresolved tokens keeps the listener re-entering: whatever the
fuel, the run does not return, and it has written the value once per level of nesting. -/
theorem inputListener_reenters (fuel : Nat) (p : Page)
    (htag : toLowerCase p.input.tagName = "input".toList ∨
      toLowerCase p.input.tagName = "textarea".toList)
    (hfw : detectFramework p.window = Framework.noFramework ∨
      detectFramework p.window = Framework.nuxtJs)
    (hmark : p.input.programmaticallyChanged ≠ some strTrue)
    (htok : tokens p.input.value ≠ [])
    (hun : ∀ n ∈ tokens p.input.value, n ∉ names p.VARIABLES ∧ '$' ∉ n) :
    ∃ p1, inputListener fuel p = Outcome.exhausted p1 ∧
      p1.writes.length = p.writes.length + fuel := by
  induction fuel generalizing p with
  | zero => exact ⟨p, rfl, rfl⟩
  | succ k ih =>
    rw [inputListener_step_unresolved k p htag hun, if_neg htok]
    unfold simulateInput
    simp only [hmark, if_false]
    rcases hfw with hd | hd
    · rw [hd]
      simp only [dispatchThenMark]
      obtain ⟨p1, h1, h2⟩ := ih { writeValue { p with
          simulateInputCalls := p.simulateInputCalls ++ [p.input.value],
          focusCalls := p.focusCalls + 1 } p.input.value with
          dispatched := (writeValue { p with
            simulateInputCalls := p.simulateInputCalls ++ [p.input.value],
            focusCalls := p.focusCalls + 1 } p.input.value).dispatched ++
            [SyntheticEvent.customInputEvent] } htag (Or.inl hd) hmark htok hun
      refine ⟨p1, ?_, ?_⟩
      · rw [h1]; rfl
      · rw [h2]; simp [writeValue]; omega
    · rw [hd]
      simp only [dispatchThenMark]
      obtain ⟨p1, h1, h2⟩ := ih { writeValue { p with
          simulateInputCalls := p.simulateInputCalls ++ [p.input.value],
          focusCalls := p.focusCalls + 1 } p.input.value with
          dispatched := (writeValue { p with
            simulateInputCalls := p.simulateInputCalls ++ [p.input.value],
            focusCalls := p.focusCalls + 1 } p.input.value).dispatched ++
            [SyntheticEvent.vueInputEvent] } htag (Or.inr hd) hmark htok hun
      refine ⟨p1, ?_, ?_⟩
      · rw [h1]; rfl
      · rw [h2]; simp [writeValue]; omega

/-- C9 fails on the code: on a page without framework, with an empty variable list, one
input event on an `<input>` whose value is `{{x}}` never finishes being handled.  For every
bound on the nesting the run is cut off inside a nested listener run, after as many
`simulateInput` writes as there are levels, so no bound on the number of writes holds. -/
theorem inputListener_unbounded_writes (fuel : Nat) :
    ∃ p1, inputListener fuel (plainPage [] "\x7b\x7bx\x7d\x7d".toList) = Outcome.exhausted p1 ∧
      p1.writes.length = fuel := by
  obtain ⟨p1, h1, h2⟩ := inputListener_reenters fuel (plainPage [] "\x7b\x7bx\x7d\x7d".toList)
    (Or.inl (by decide)) (Or.inl (by decide)) (by decide) (by decide) (by decide)
  exact ⟨p1, h1, by simpa [plainPage] using h2⟩

/-! ## Uniqueness of names -/

/-- C4 fails on the code: from the list holding the single variable `a`, the edit action on
index 0 confirmed with the new name `b` leaves two entries named `b`. -/
theorem editVariable_rename_duplicates :
    (names [(⟨"a".toList, "1".toList⟩ : Variable)]).Nodup ∧
    (editVariable ⟨[⟨"a".toList, "1".toList⟩], []⟩ 0
        (some ("b".toList, "2".toList))).VARIABLES
      = [⟨"b".toList, "2".toList⟩, ⟨"b".toList, "2".toList⟩] ∧
    ¬ (names (editVariable ⟨[⟨"a".toList, "1".toList⟩], []⟩ 0
        (some ("b".toList, "2".toList))).VARIABLES).Nodup := by
  refine ⟨by decide, by decide, by decide⟩

/-! ## Where `replace` finds the placeholder -/

theorem isLineTerminator_ne_brace (c : Char) (h : isLineTerminator c = true) : c ≠ '}' := by
  intro e
  subst e
  revert h
  decide

theorem head?_append_closing (n Y : JSString) :
    (n ++ '}' :: '}' :: Y).head? = (n ++ ['}', '}']).head? := by
  cases n <;> rfl

theorem LazyName.tail (c : Char) (n : JSString) (h : LazyName (c :: n)) :
    ¬ (c = '}' ∧ (n ++ ['}', '}']).head? = some '}') ∧ isLineTerminator c = false ∧
      LazyName n := by
  unfold LazyName at h
  simp only [List.cons_append] at h
  unfold matchBody at h
  split at h
  · simp at h
  · rename_i hc
    split at h
    · simp at h
    · rename_i hl
      refine ⟨hc, by simpa using hl, ?_⟩
      cases hm : matchBody (n ++ ['}', '}']) with
      | none => simp [hm] at h
      | some r =>
        obtain ⟨n1, a1⟩ := r
        simp only [hm, Option.some.injEq, Prod.mk.injEq, List.cons.injEq, true_and] at h
        obtain ⟨rfl, rfl⟩ := h
        exact hm

theorem LazyName.cons (c : Char) (n : JSString) (h : LazyName n)
    (hc : ¬ (c = '}' ∧ (n ++ ['}', '}']).head? = some '}'))
    (hl : isLineTerminator c = false) : LazyName (c :: n) := by
  unfold LazyName at h ⊢
  simp only [List.cons_append]
  unfold matchBody
  rw [if_neg hc]
  simp [hl, h]

/-- After a lazy name and its two closing braces, `matchBody` returns the name and what
follows. -/
theorem matchBody_lazyName_append (n Y : JSString) (h : LazyName n) :
    matchBody (n ++ '}' :: '}' :: Y) = some (n, Y) := by
  induction n with
  | nil => simp [matchBody]
  | cons c n ih =>
    obtain ⟨hc, hl, hn⟩ := LazyName.tail c n h
    simp only [List.cons_append]
    unfold matchBody
    rw [head?_append_closing, if_neg hc]
    simp [hl, ih hn]

theorem lazyName_of_matchBody (s n a : JSString) (h : matchBody s = some (n, a)) :
    LazyName n := by
  induction s generalizing n with
  | nil => simp [matchBody] at h
  | cons c rest ih =>
    have hs := matchBody_eq_some _ _ _ h
    unfold matchBody at h
    split at h
    · simp only [Option.some.injEq, Prod.mk.injEq] at h
      obtain ⟨rfl, _⟩ := h
      simp [LazyName, matchBody]
    · rename_i hc
      split at h
      · simp at h
      · rename_i hl
        cases hm : matchBody rest with
        | none => simp [hm] at h
        | some r =>
          obtain ⟨n1, a1⟩ := r
          simp only [hm, Option.some.injEq, Prod.mk.injEq] at h
          obtain ⟨rfl, rfl⟩ := h
          have hrest := matchBody_eq_some _ _ _ hm
          refine LazyName.cons c n1 (ih n1 hm) ?_ (by simpa using hl)
          rw [← head?_append_closing n1 a1, ← hrest]
          exact hc

theorem lazyName_of_matchHere (s n a : JSString) (h : matchHere s = some (n, a)) :
    LazyName n := by
  unfold matchHere at h
  split at h
  · split at h
    · exact lazyName_of_matchBody _ _ _ h
    · simp at h
  · simp at h

theorem lazyName_of_exec (s : JSString) (m : RegExpMatch) (h : exec s = some m) :
    LazyName m.name := by
  induction s generalizing m with
  | nil => simp [exec] at h
  | cons c rest ih =>
    unfold exec at h
    split at h
    · rename_i name after hm
      simp only [Option.some.injEq] at h
      subst h
      exact lazyName_of_matchHere _ _ _ hm
    · cases he : exec rest with
      | none => simp [he] at h
      | some m1 =>
        simp only [he, Option.some.injEq] at h
        subst h
        exact ih m1 he

theorem matchHere_placeholder (n Y : JSString) (h : LazyName n) :
    matchHere (placeholder n ++ Y) = some (n, Y) := by
  have := matchBody_lazyName_append n Y h
  simp [placeholder, matchHere, this]

/-- Where the text begins with the placeholder of a lazy name, the pattern matches with that
name. -/
theorem matchHere_of_startsWith (S b : JSString) (hb : LazyName b)
    (h : startsWith S (placeholder b) = true) :
    matchHere S = some (b, S.drop (placeholder b).length) := by
  have hS := startsWith_eq_true S _ h
  conv_lhs => rw [hS]
  exact matchHere_placeholder b _ hb

/-- A scan that fails before it reaches `Y`, where it would succeed, fails whatever replaces
`Y`. -/
theorem matchBody_eq_none_of_prefix (X Y Z : JSString) (h : matchBody (X ++ Y) = none)
    (hY : matchBody Y ≠ none) : matchBody (X ++ Z) = none := by
  induction X with
  | nil => exact absurd h hY
  | cons c X ih =>
    simp only [List.cons_append] at h ⊢
    unfold matchBody at h ⊢
    split at h
    · simp at h
    · rename_i hc
      by_cases hl : isLineTerminator c = true
      · have hne := isLineTerminator_ne_brace c hl
        simp [hne, hl]
      · simp only [hl, Bool.false_eq_true, if_false] at h ⊢
        cases X with
        | nil =>
          exfalso
          apply hY
          simp only [List.nil_append] at h
          cases hm : matchBody Y with
          | none => rfl
          | some r => simp [hm] at h
        | cons d X2 =>
          have hnone : matchBody (d :: X2 ++ Y) = none := by
            cases hm : matchBody (d :: X2 ++ Y) with
            | none => rfl
            | some r =>
              rw [hm] at h
              cases r
              simp at h
          have hc2 : ¬ (c = '}' ∧ (d :: X2 ++ Z).head? = some '}') := by
            simpa using hc
          rw [if_neg hc2, ih hnone]

theorem exec_before_fails (R : JSString) (m : RegExpMatch) (h : exec R = some m) :
    ∀ B1 B2, m.before = B1 ++ B2 → B2 ≠ [] →
      matchHere (B2 ++ placeholder m.name ++ m.after) = none := by
  induction R generalizing m with
  | nil => simp [exec] at h
  | cons c rest ih =>
    intro B1 B2 hB hne
    have hR := exec_eq_some _ _ h
    unfold exec at h
    split at h
    · simp only [Option.some.injEq] at h
      subst h
      simp only at hB
      have : B2 = [] := by
        have := congrArg List.length hB
        simp at this
        exact List.length_eq_zero.1 (by omega)
      exact absurd this hne
    · rename_i hnone
      cases he : exec rest with
      | none => simp [he] at h
      | some m1 =>
        simp only [he, Option.some.injEq] at h
        subst h
        simp only at hB hR ⊢
        cases B1 with
        | nil =>
          simp only [List.nil_append] at hB
          rw [← hB, ← hR]
          exact hnone
        | cons b1 B1 =>
          simp only [List.cons_append, List.cons.injEq] at hB
          exact ih m1 he B1 B2 hB.2 hne

theorem splitAtFirst_append_of_noStartIn (pat X Y : JSString) (h : NoStartIn pat X Y) :
    splitAtFirst pat (X ++ Y) = (splitAtFirst pat Y).map (fun r => (X ++ r.1, r.2)) := by
  induction X with
  | nil =>
    simp only [List.nil_append]
    cases hs : splitAtFirst pat Y <;> simp
  | cons c X ih =>
    have h0 : startsWith (c :: X ++ Y) pat = false := h [] (c :: X) rfl (by simp)
    have hX : NoStartIn pat X Y := fun X1 X2 e hne => h (c :: X1) X2 (by simp [e]) hne
    simp only [List.cons_append] at h0 ⊢
    rw [splitAtFirst, h0, ih hX]
    cases hs : splitAtFirst pat Y <;> simp

theorem startsWith_append_self (a b : JSString) : startsWith (a ++ b) a = true := by
  induction a with
  | nil => cases b <;> rfl
  | cons x a ih => simp [startsWith, ih]

theorem splitAtFirst_self_append (a b : JSString) (ha : a ≠ []) :
    splitAtFirst a (a ++ b) = some ([], b) := by
  cases a with
  | nil => exact absurd rfl ha
  | cons x a =>
    have hs := startsWith_append_self (x :: a) b
    simp only [List.cons_append] at hs ⊢
    rw [splitAtFirst, if_pos hs]
    simp

theorem NoStartIn.append (pat X X2 Y : JSString) (h1 : NoStartIn pat X (X2 ++ Y))
    (h2 : NoStartIn pat X2 Y) : NoStartIn pat (X ++ X2) Y := by
  intro A B hAB hne
  rcases List.append_eq_append_iff.1 hAB with ⟨a, rfl, hX2⟩ | ⟨c, hX, hB⟩
  · exact h2 a B hX2 hne
  · by_cases hc : c = []
    · subst hc
      simp only [List.nil_append] at hB
      subst hB
      exact h2 [] _ rfl hne
    · have := h1 A c hX hc
      rw [hB, List.append_assoc]
      exact this

/-- The first occurrence of the placeholder of the name `exec` returns is the match. -/
theorem splitAtFirst_of_exec (R : JSString) (m : RegExpMatch) (h : exec R = some m) :
    splitAtFirst (placeholder m.name) R = some (m.before, m.after) := by
  have hlazy := lazyName_of_exec R m h
  have hno : NoStartIn (placeholder m.name) m.before (placeholder m.name ++ m.after) := by
    intro B1 B2 hB hne
    have hf := exec_before_fails R m h B1 B2 hB hne
    cases hs : startsWith (B2 ++ (placeholder m.name ++ m.after)) (placeholder m.name) with
    | false => rfl
    | true =>
      have := matchHere_of_startsWith _ _ hlazy hs
      rw [← List.append_assoc, hf] at this
      simp at this
  have hR := exec_eq_some R m h
  conv_lhs => rw [hR, List.append_assoc]
  rw [splitAtFirst_append_of_noStartIn _ _ _ hno]
  rw [splitAtFirst_self_append _ _ (by simp [placeholder])]
  simp

/-- The pattern fails at every position of the text before a match also when the match and
what follows are replaced by something else. -/
theorem matchHere_eq_none_of_before (B2 n after Z : JSString) (hne : B2 ≠ [])
    (hn : LazyName n) (h : matchHere (B2 ++ placeholder n ++ after) = none) :
    matchHere (B2 ++ Z) = none := by
  have hb1 : LazyName ('{' :: n) := LazyName.cons _ _ hn (by simp) (by decide)
  have hb2 : LazyName ('{' :: '{' :: n) := LazyName.cons _ _ hb1 (by simp) (by decide)
  cases B2 with
  | nil => exact absurd rfl hne
  | cons c B2 =>
    cases B2 with
    | nil =>
      have hc : c ≠ '{' := by
        intro e
        subst e
        have := matchBody_lazyName_append ('{' :: n) after hb1
        simp only [placeholder, matchHere, List.cons_append, List.append_assoc, List.nil_append,
          and_self, if_true] at h this
        rw [this] at h
        simp at h
      cases Z with
      | nil => rfl
      | cons z Z => simp [matchHere, hc]
    | cons d B2 =>
      simp only [List.cons_append, List.append_assoc, matchHere] at h ⊢
      split
      · rename_i hcd
        rw [if_pos hcd] at h
        refine matchBody_eq_none_of_prefix B2 _ Z h ?_
        have := matchBody_lazyName_append ('{' :: '{' :: n) after hb2
        simp only [placeholder, List.cons_append, List.append_assoc, List.nil_append]
          at this ⊢
        rw [this]
        simp
      · rfl

theorem startsWith_placeholder_of_not_brace (X2 Y b : JSString) (hne : X2 ≠ [])
    (h : '{' ∉ X2) : startsWith (X2 ++ Y) (placeholder b) = false := by
  cases X2 with
  | nil => exact absurd rfl hne
  | cons c X2 =>
    have hc : ¬ c = '{' := fun e => h (by simp [e])
    simp [placeholder, startsWith, hc]

theorem noStartIn_placeholder_placeholder (b n Y : JSString) (hb : LazyName b)
    (hn : LazyName n) (hne : b ≠ n) (hbrace : '{' ∉ n) :
    NoStartIn (placeholder b) (placeholder n) Y := by
  intro X1 X2 hX hX2
  cases X1 with
  | nil =>
    simp only [List.nil_append] at hX
    subst hX
    cases hs : startsWith (placeholder n ++ Y) (placeholder b) with
    | false => rfl
    | true =>
      have h1 := matchHere_of_startsWith _ _ hb hs
      rw [matchHere_placeholder n Y hn] at h1
      simp only [Option.some.injEq, Prod.mk.injEq] at h1
      exact absurd h1.1.symm hne
  | cons x X1 =>
    cases X1 with
    | nil =>
      simp only [placeholder, List.cons_append, List.nil_append, List.cons.injEq] at hX
      obtain ⟨_, hX⟩ := hX
      subst hX
      cases n with
      | nil => simp [placeholder, startsWith]
      | cons e n =>
        have he : ¬ e = '{' := fun e1 => hbrace (by simp [e1])
        simp [placeholder, startsWith, he]
    | cons y X1 =>
      simp only [placeholder, List.cons_append, List.cons.injEq] at hX
      obtain ⟨_, _, hX⟩ := hX
      apply startsWith_placeholder_of_not_brace _ _ _ hX2
      intro hmem
      have : '{' ∈ n ++ ['}', '}'] := by
        rw [hX]
        exact List.mem_append_right _ hmem
      simp only [List.mem_append, List.mem_cons, List.mem_singleton] at this
      rcases this with h | h | h | h
      · exact hbrace h
      · exact absurd h (by decide)
      · exact absurd h (by decide)
      · simp at h

theorem settled_nil (VARIABLES : List Variable) : Settled VARIABLES [] := by
  intro b Y _ _ _ X1 X2 hX hX2
  have := congrArg List.length hX
  simp at this
  exact absurd (List.length_eq_zero.1 (by omega)) hX2

/-- The part the loop has been through stays settled over one more iteration, whether the
token was replaced by a value without `{` or, its name not resolving, was left as it is. -/
theorem settled_step (VARIABLES : List Variable) (D R X : JSString) (m : RegExpMatch)
    (hD : Settled VARIABLES D) (he : exec R = some m)
    (hX : ('{' ∉ X) ∨ (X = placeholder m.name ∧ m.name ∉ names VARIABLES ∧ '{' ∉ m.name)) :
    Settled VARIABLES (D ++ (m.before ++ X)) := by
  intro b Y hb hbrace hmem
  have hlazy := lazyName_of_exec R m he
  apply NoStartIn.append _ _ _ _ (hD b _ hb hbrace hmem)
  apply NoStartIn.append
  · intro B1 B2 hB hne
    have hf := exec_before_fails R m he B1 B2 hB hne
    have hnone := matchHere_eq_none_of_before B2 m.name m.after (X ++ Y) hne hlazy hf
    cases hs : startsWith (B2 ++ (X ++ Y)) (placeholder b) with
    | false => rfl
    | true =>
      have := matchHere_of_startsWith _ _ hb hs
      rw [hnone] at this
      simp at this
  · rcases hX with hX | ⟨rfl, hnot, hbr⟩
    · intro X1 X2 hX12 hne
      apply startsWith_placeholder_of_not_brace _ _ _ hne
      intro h
      exact hX (by rw [hX12]; exact List.mem_append_right _ h)
    · exact noStartIn_placeholder_placeholder b m.name Y hb hlazy
        (fun e => hnot (e ▸ hmem)) hbr

theorem find?_name_of_mem (vars : List Variable) (n : JSString) (h : n ∈ names vars) :
    ∃ x, vars.find? (fun v => decide (v.name = n)) = some x ∧ x ∈ vars := by
  have := (find?_name_isSome vars n).2 h
  cases hf : vars.find? (fun v => decide (v.name = n)) with
  | none => simp [hf] at this
  | some x => exact ⟨x, rfl, List.mem_of_find?_eq_some hf⟩

/-- The loop against the substitution of the specification, from any iteration on. -/
theorem substituteLoop_eq_expectedLoop (VARIABLES : List Variable)
    (hV : ∀ x ∈ VARIABLES, x.value ≠ [] ∧ '$' ∉ x.value ∧ '{' ∉ x.value)
    (fuel : Nat) (R D : JSString) (hasMatch : Bool) (hfuel : R.length < fuel)
    (hD : Settled VARIABLES D)
    (hn : ∀ n ∈ tokenNames fuel R, '$' ∉ n ∧ '{' ∉ n) :
    substituteLoop VARIABLES fuel R (D ++ R) hasMatch
      = some (D ++ expectedLoop VARIABLES fuel R,
          hasMatch || !(tokenNames fuel R).isEmpty) := by
  induction fuel generalizing R D hasMatch with
  | zero => omega
  | succ k ih =>
    unfold substituteLoop expectedLoop
    unfold tokenNames at hn ⊢
    cases he : exec R with
    | none => simp
    | some m =>
      simp only [he] at hn ⊢
      have hname := hn m.name (List.mem_cons_self _ _)
      have hlen := exec_after_length R m he
      have hR := exec_eq_some R m he
      have hlazy := lazyName_of_exec R m he
      have hrest : ∀ n ∈ tokenNames k m.after, '$' ∉ n ∧ '{' ∉ n :=
        fun n h => hn n (List.mem_cons_of_mem _ h)
      by_cases hmem : m.name ∈ names VARIABLES
      · obtain ⟨x, hx, hxmem⟩ := find?_name_of_mem VARIABLES m.name hmem
        obtain ⟨hx1, hx2, hx3⟩ := hV x hxmem
        have hget : getVariableFromList VARIABLES m.name JSValue.undefined
            = JSValue.str x.value := by
          simp [getVariableFromList, hx]
        have hlook : lookupOrPlaceholder VARIABLES m.name = x.value := by
          simp [lookupOrPlaceholder, hget, truthy, hx1]
        have hsplit : splitAtFirst (placeholder m.name) (D ++ R)
            = some (D ++ m.before, m.after) := by
          rw [splitAtFirst_append_of_noStartIn _ _ _ (hD m.name R hlazy hname.2 hmem),
            splitAtFirst_of_exec R m he]
          rfl
        have hrep : replace (D ++ R) (placeholder m.name) x.value
            = (D ++ (m.before ++ x.value)) ++ m.after := by
          unfold replace
          rw [hsplit]
          simp only [getSubstitution_of_no_dollar _ _ _ _ hx2, List.append_assoc]
        rw [hlook, hrep, hget,
          ih m.after (D ++ (m.before ++ x.value)) true (by omega)
            (settled_step VARIABLES D R x.value m hD he (Or.inl hx3)) hrest]
        simp
      · have hlook := lookupOrPlaceholder_of_not_mem VARIABLES m.name hmem
        have hget : getVariableFromList VARIABLES m.name JSValue.undefined
            = JSValue.undefined := by
          simp [getVariableFromList, (find?_name_eq_none VARIABLES m.name).2 hmem]
        have hrep : D ++ R = (D ++ (m.before ++ placeholder m.name)) ++ m.after := by
          conv_lhs => rw [hR]
          simp only [List.append_assoc]
        rw [hlook, replace_self _ _ (dollar_not_mem_placeholder _ hname.1), hget, hrep,
          ih m.after (D ++ (m.before ++ placeholder m.name)) true (by omega)
            (settled_step VARIABLES D R (placeholder m.name) m hD he
              (Or.inr ⟨rfl, hmem, hname.2⟩)) hrest]
        simp

/-- When no variable value is empty or holds `$` or `{`, and no token name of the input
value holds `$` or `{`, the loop of lines 222-228 computes the substitution of the
specification, and `hasMatch` tells whether the value holds a token. -/
theorem substitute_eq_expectedSubstitution (VARIABLES : List Variable) (value : JSString)
    (hV : ∀ x ∈ VARIABLES, x.value ≠ [] ∧ '$' ∉ x.value ∧ '{' ∉ x.value)
    (hn : ∀ n ∈ tokens value, '$' ∉ n ∧ '{' ∉ n) :
    substitute VARIABLES value
      = some (expectedSubstitution VARIABLES value, !(tokens value).isEmpty) := by
  have := substituteLoop_eq_expectedLoop VARIABLES hV (value.length + 1) value [] false
    (Nat.lt_succ_self _) (settled_nil VARIABLES) hn
  simpa [substitute, expectedSubstitution, tokens] using this

/-! ## Substitution against the specification -/

/-- C1 fails on the code: with the variable `a` set to `$&`, the value `{{a}}` is left as
`{{a}}` although the specification has `$&` in its place; and with `a` set to `{{b}}` and `b`
to `Y`, the value `{{a}}{{b}}` becomes `Y{{b}}` where the specification has `{{b}}Y`. -/
theorem substitute_differs_from_expected :
    (substitute [⟨"a".toList, "$&".toList⟩] "\x7b\x7ba\x7d\x7d".toList
        = some ("\x7b\x7ba\x7d\x7d".toList, true) ∧
      expectedSubstitution [⟨"a".toList, "$&".toList⟩] "\x7b\x7ba\x7d\x7d".toList
        = "$&".toList) ∧
    (substitute [⟨"a".toList, "\x7b\x7bb\x7d\x7d".toList⟩, ⟨"b".toList, "Y".toList⟩]
        "\x7b\x7ba\x7d\x7d\x7b\x7bb\x7d\x7d".toList
        = some ("Y\x7b\x7bb\x7d\x7d".toList, true) ∧
      expectedSubstitution [⟨"a".toList, "\x7b\x7bb\x7d\x7d".toList⟩, ⟨"b".toList, "Y".toList⟩]
        "\x7b\x7ba\x7d\x7d\x7b\x7bb\x7d\x7d".toList
        = "\x7b\x7bb\x7d\x7dY".toList) ∧
    substitute [⟨"a".toList, "$&".toList⟩] "\x7b\x7ba\x7d\x7d".toList
      ≠ some (expectedSubstitution [⟨"a".toList, "$&".toList⟩] "\x7b\x7ba\x7d\x7d".toList,
          true) := by
  refine ⟨⟨by decide, by decide⟩, ⟨by decide, by decide⟩, by decide⟩

end VARINPUT
